import Mathlib

/-!
Shallow embedding of the `@dreamer/cache` core: the in-memory entry store
(`MemoryAdapter`, `src/adapters/memory.ts`) and the multi-level cascade
(`MultiLevelCache`, `src/mod.ts`).

Modelling conventions:
* JS `Map<string, CacheItem>` is an association list in insertion order;
  `Map.set` replaces in place when the key exists and appends otherwise,
  `Map.delete` removes the (unique) matching entry.
* `Date.now()` is an explicit `now : Nat` argument (milliseconds).
* JS `undefined` for values is the `JSVal.undef` constructor; optional
  arguments are `Option`.
* JS truthiness is embedded explicitly where the source relies on it:
  a number is truthy iff nonzero, a string is truthy iff nonempty.
-/

/-- Mirrors `CacheStrategy` in `src/adapters/types.ts`. -/
inductive CacheStrategy where
  | lru
  | fifo
  | lfu
deriving DecidableEq, Repr

/-- A JavaScript value stored in the cache: either `undefined` or a defined
payload (modelled opaquely as a `Nat`). -/
inductive JSVal where
  | undef
  | val (n : Nat)
deriving DecidableEq, Repr

/-- Mirrors `CacheItem` in `src/adapters/types.ts`. -/
structure CacheItem where
  value : JSVal
  expiresAt : Option Nat
  accessedAt : Nat
  accessCount : Nat
  tags : Option (List String)
deriving DecidableEq, Repr

/-- Constructor argument of `MemoryAdapter` (all fields optional). -/
structure MemoryAdapterOptions where
  ttl : Option Nat
  maxSize : Option Nat
  strategy : Option CacheStrategy
deriving DecidableEq, Repr

/-- The resolved `Required<MemoryAdapterOptions>`; `maxSize = none` models
`Infinity`. -/
structure StoreOptions where
  ttl : Nat
  maxSize : Option Nat
  strategy : CacheStrategy
deriving DecidableEq, Repr

/-- Mirrors the `MemoryAdapter` constructor's defaulting:
`ttl: options.ttl || 0`, `maxSize: options.maxSize || Infinity`,
`strategy: options.strategy || "lru"` (falsy values replaced). -/
def resolveOptions (o : MemoryAdapterOptions) : StoreOptions :=
  { ttl := o.ttl.getD 0
    maxSize :=
      match o.maxSize with
      | some m => if m = 0 then none else some m
      | none => none
    strategy := o.strategy.getD .lru }

/-- Mirrors `if (this.options.ttl > 0) this.startCleanup()` in the
constructor: whether the periodic sweep timer is started. -/
def cleanupStarted (o : MemoryAdapterOptions) : Bool :=
  decide (0 < (resolveOptions o).ttl)

/-- The mutable state of a `MemoryAdapter`: the `cache` map, the resolved
options and the `accessOrder` array. -/
structure MemoryState where
  cache : List (String × CacheItem)
  opts : StoreOptions
  accessOrder : List String
deriving DecidableEq, Repr

/-- A freshly constructed `MemoryAdapter`. -/
def initState (o : MemoryAdapterOptions) : MemoryState :=
  { cache := [], opts := resolveOptions o, accessOrder := [] }

/-- JS `Map.get` on an association list (first matching entry). -/
def mapGet {α : Type} : List (String × α) → String → Option α
  | [], _ => none
  | e :: rest, k => if e.1 = k then some e.2 else mapGet rest k

/-- JS `Map.set`: replace the entry in place if the key exists, append
otherwise. -/
def mapSet {α : Type} : List (String × α) → String → α → List (String × α)
  | [], k, v => [(k, v)]
  | e :: rest, k, v => if e.1 = k then (k, v) :: rest else e :: mapSet rest k v

/-- JS `Map.delete`: remove the first entry with the given key. -/
def mapDelete {α : Type} : List (String × α) → String → List (String × α)
  | [], _ => []
  | e :: rest, k => if e.1 = k then rest else e :: mapDelete rest k

/-- `removeFromAccessOrder`: `splice` out the first occurrence found by
`indexOf` (no-op when absent). -/
def removeKey : List String → String → List String
  | [], _ => []
  | x :: rest, k => if x = k then rest else x :: removeKey rest k

/-- The expiry test `item.expiresAt && Date.now() > item.expiresAt`
(note the truthiness: a zero `expiresAt` never counts as expired). -/
def isExpired (it : CacheItem) (now : Nat) : Bool :=
  match it.expiresAt with
  | some e => decide (e ≠ 0) && decide (now > e)
  | none => false

/-- The `expiresAt` computation in `MemoryAdapter.set`:
`ttl ? now + ttl * 1000 : this.options.ttl > 0 ? now + this.options.ttl * 1000
: undefined` (a passed `ttl` of `0` is falsy and falls through to the
default). -/
def computeExpiresAt (optTtl : Nat) (ttl : Option Nat) (now : Nat) : Option Nat :=
  match ttl with
  | some t =>
    if t ≠ 0 then some (now + t * 1000)
    else if 0 < optTtl then some (now + optTtl * 1000) else none
  | none => if 0 < optTtl then some (now + optTtl * 1000) else none

/-- The LFU victim scan in `MemoryAdapter.evict`: first entry (in map
iteration order) with a strictly minimal `accessCount`. -/
def lfuVictim (m : List (String × CacheItem)) : Option String :=
  (m.foldl
    (fun acc e =>
      match acc with
      | none => some (e.1, e.2.accessCount)
      | some kc => if e.2.accessCount < kc.2 then some (e.1, e.2.accessCount) else acc)
    none).map Prod.fst

/-- `MemoryAdapter.evict`. The victim is guarded by `if (keyToRemove)`,
so an `undefined` victim — and, by JS truthiness, an empty-string victim —
is not deleted (though FIFO/LRU's `shift()` has already consumed it). -/
def evict (st : MemoryState) : MemoryState :=
  if st.cache.length = 0 then st
  else
    match st.opts.strategy with
    | .fifo | .lru =>
      match st.accessOrder with
      | [] => st
      | k :: rest =>
        if k ≠ "" then
          { st with cache := mapDelete st.cache k, accessOrder := removeKey rest k }
        else
          { st with accessOrder := rest }
    | .lfu =>
      match lfuVictim st.cache with
      | some k =>
        if k ≠ "" then
          { st with cache := mapDelete st.cache k, accessOrder := removeKey st.accessOrder k }
        else st
      | none => st

/-- `updateAccessOrder`: splice the key out (if present) and push it to the
most-recently-used end. -/
def updateAccessOrder (ao : List String) (k : String) : List String :=
  removeKey ao k ++ [k]

/-- `MemoryAdapter.get`. -/
def adapterGet (st : MemoryState) (k : String) (now : Nat) : JSVal × MemoryState :=
  match mapGet st.cache k with
  | none => (.undef, st)
  | some it =>
    if isExpired it now then
      (.undef,
        { st with cache := mapDelete st.cache k, accessOrder := removeKey st.accessOrder k })
    else
      let it' : CacheItem := { it with accessedAt := now, accessCount := it.accessCount + 1 }
      let st' := { st with cache := mapSet st.cache k it' }
      (it.value,
        if st.opts.strategy = .lru
        then { st' with accessOrder := updateAccessOrder st'.accessOrder k }
        else st')

/-- `MemoryAdapter.set`. -/
def adapterSet (st : MemoryState) (k : String) (v : JSVal) (ttl : Option Nat)
    (tags : Option (List String)) (now : Nat) : MemoryState :=
  let it : CacheItem :=
    { value := v
      expiresAt := computeExpiresAt st.opts.ttl ttl now
      accessedAt := now
      accessCount := 0
      tags := tags }
  if (mapGet st.cache k).isSome then
    let st' := { st with cache := mapSet st.cache k it }
    if st.opts.strategy = .lru
    then { st' with accessOrder := updateAccessOrder st'.accessOrder k }
    else st'
  else
    let st₁ :=
      match st.opts.maxSize with
      | some m => if m ≤ st.cache.length then evict st else st
      | none => st
    let st₂ := { st₁ with cache := mapSet st₁.cache k it }
    if st.opts.strategy = .fifo ∨ st.opts.strategy = .lru
    then { st₂ with accessOrder := st₂.accessOrder ++ [k] }
    else st₂

/-- `MemoryAdapter.delete`. -/
def adapterDelete (st : MemoryState) (k : String) : MemoryState :=
  { st with cache := mapDelete st.cache k, accessOrder := removeKey st.accessOrder k }

/-- `MemoryAdapter.has`. -/
def adapterHas (st : MemoryState) (k : String) (now : Nat) : Bool × MemoryState :=
  match mapGet st.cache k with
  | none => (false, st)
  | some it =>
    if isExpired it now then
      (false,
        { st with cache := mapDelete st.cache k, accessOrder := removeKey st.accessOrder k })
    else (true, st)

/-- `MemoryAdapter.keys`: collects the non-expired keys and lazily deletes
every expired entry met during the scan. -/
def adapterKeys (st : MemoryState) (now : Nat) : List String × MemoryState :=
  ((st.cache.filter (fun e => !isExpired e.2 now)).map Prod.fst,
    ((st.cache.filter (fun e => isExpired e.2 now)).map Prod.fst).foldl adapterDelete st)

/-- `MemoryAdapter.clear`. -/
def adapterClear (st : MemoryState) : MemoryState :=
  { st with cache := [], accessOrder := [] }

/-- The loop body of `MemoryAdapter.getMany`: one `get`, recording the
value only when it is defined
(`if (value !== undefined) result[key] = value`). -/
def getManyStep (now : Nat) (acc : List (String × JSVal) × MemoryState) (k : String) :
    List (String × JSVal) × MemoryState :=
  let r := adapterGet acc.2 k now
  if r.1 ≠ JSVal.undef then (mapSet acc.1 k r.1, r.2) else (acc.1, r.2)

/-- `MemoryAdapter.getMany`: repeated `get`, omitting keys whose `get`
returned `undefined`. -/
def adapterGetMany (st : MemoryState) (keys : List String) (now : Nat) :
    List (String × JSVal) × MemoryState :=
  keys.foldl (getManyStep now) ([], st)

/-- `MemoryAdapter.setMany`: repeated `set` with the shared `ttl` and no
tags. -/
def adapterSetMany (st : MemoryState) (data : List (String × JSVal))
    (ttl : Option Nat) (now : Nat) : MemoryState :=
  data.foldl (fun s e => adapterSet s e.1 e.2 ttl none now) st

/-- The tag match in `MemoryAdapter.deleteByTags`:
`item.tags && item.tags.some((tag) => tagSet.has(tag))`. -/
def matchesTags (tags : List String) (e : String × CacheItem) : Bool :=
  match e.2.tags with
  | some ts => ts.any (fun t => tags.contains t)
  | none => false

/-- `MemoryAdapter.deleteByTags`: collect the keys of all matching entries,
then delete each; returns the number collected. An empty tag list returns 0
without touching the store. -/
def adapterDeleteByTags (st : MemoryState) (tags : List String) : Nat × MemoryState :=
  if tags.isEmpty then (0, st)
  else
    let ks := (st.cache.filter (matchesTags tags)).map Prod.fst
    (ks.length, ks.foldl adapterDelete st)

/-- One caller-visible operation on a `MemoryAdapter`, with the `Date.now()`
value it observes. -/
inductive CacheOp where
  | set (k : String) (v : JSVal) (ttl : Option Nat) (tags : Option (List String)) (now : Nat)
  | get (k : String) (now : Nat)
  | del (k : String)
  | has (k : String) (now : Nat)
  | keys (now : Nat)
  | clear
  | delByTags (tags : List String)
  | getMany (ks : List String) (now : Nat)
  | setMany (data : List (String × JSVal)) (ttl : Option Nat) (now : Nat)
deriving DecidableEq, Repr

/-- Run one operation, discarding its return value. -/
def runOp (st : MemoryState) : CacheOp → MemoryState
  | .set k v ttl tags now => adapterSet st k v ttl tags now
  | .get k now => (adapterGet st k now).2
  | .del k => adapterDelete st k
  | .has k now => (adapterHas st k now).2
  | .keys now => (adapterKeys st now).2
  | .clear => adapterClear st
  | .delByTags tags => (adapterDeleteByTags st tags).2
  | .getMany ks now => (adapterGetMany st ks now).2
  | .setMany data ttl now => adapterSetMany st data ttl now

/-- Run a sequence of operations. -/
def runOps (st : MemoryState) (ops : List CacheOp) : MemoryState :=
  ops.foldl runOp st

/-- An abstract cache level for the multi-level cascade: the `CacheAdapter`
contract of `src/adapters/types.ts`, over a level state type. -/
structure AdapterImpl (σ : Type) where
  get : σ → String → Nat → JSVal × σ
  set : σ → String → JSVal → Option Nat → Option (List String) → Nat → σ
  delByTags : σ → List String → Nat × σ

/-- The `MemoryAdapter` instantiation of the level contract. -/
def memoryImpl : AdapterImpl MemoryState :=
  { get := adapterGet
    set := adapterSet
    delByTags := adapterDeleteByTags }

/-- `MultiLevelCache.get` (`src/mod.ts`): try each level in order; on the
first defined result, write it back (`set(key, result)`: no TTL, no tags)
into every earlier level and return it. -/
def mlGet {σ : Type} (impl : AdapterImpl σ) (levels : List σ) (key : String)
    (now : Nat) : JSVal × List σ :=
  match levels with
  | [] => (.undef, [])
  | s :: rest =>
    let r := impl.get s key now
    if r.1 = JSVal.undef then
      let w := mlGet impl rest key now
      if w.1 = JSVal.undef then (w.1, r.2 :: w.2)
      else (w.1, impl.set r.2 key w.1 none none now :: w.2)
    else (r.1, r.2 :: rest)

/-- Modelled from the spec: the `MultiLevelCache.deleteByTags` implementation
is not among the provided sources — only the `CacheAdapter` declaration in
`src/adapters/types.ts` and `tests/multi-level-cache.test.ts` refer to it.
Per the spec (§4.2), it fans the same tag list out to every level and sums
the per-level deleted counts. -/
def mlDeleteByTags {σ : Type} (impl : AdapterImpl σ) (levels : List σ)
    (tags : List String) : Nat × List σ :=
  match levels with
  | [] => (0, [])
  | s :: rest =>
    let r := impl.delByTags s tags
    let w := mlDeleteByTags impl rest tags
    (r.1 + w.1, r.2 :: w.2)

/-! ### Association-list lemmas -/

theorem mapGet_eq_none_iff {α : Type} (m : List (String × α)) (k : String) :
    mapGet m k = none ↔ k ∉ m.map Prod.fst := by
  induction m with
  | nil => simp [mapGet]
  | cons e rest ih =>
    by_cases h : e.1 = k
    · simp [mapGet, h]
    · simp [mapGet, h, ih, Ne.symm h]

theorem mem_of_mapGet_eq_some {α : Type} {m : List (String × α)} {k : String} {v : α}
    (h : mapGet m k = some v) : k ∈ m.map Prod.fst := by
  by_contra hk
  rw [← mapGet_eq_none_iff] at hk
  rw [hk] at h
  exact Option.noConfusion h

theorem mapGet_mapSet_self {α : Type} (m : List (String × α)) (k : String) (v : α) :
    mapGet (mapSet m k v) k = some v := by
  induction m with
  | nil => simp [mapGet, mapSet]
  | cons e rest ih =>
    by_cases h : e.1 = k
    · simp [mapSet, h, mapGet]
    · simp [mapSet, h, mapGet, ih]

theorem keys_mapSet_mem {α : Type} {m : List (String × α)} {k : String} (v : α)
    (h : k ∈ m.map Prod.fst) : (mapSet m k v).map Prod.fst = m.map Prod.fst := by
  induction m with
  | nil => simp at h
  | cons e rest ih =>
    by_cases he : e.1 = k
    · simp [mapSet, he]
    · simp at h
      rcases h with h | h
      · exact absurd h.symm he
      · simpa [mapSet, he] using ih (by simpa using h)

theorem mapSet_not_mem {α : Type} {m : List (String × α)} {k : String} (v : α)
    (h : k ∉ m.map Prod.fst) : mapSet m k v = m ++ [(k, v)] := by
  induction m with
  | nil => simp [mapSet]
  | cons e rest ih =>
    rw [List.map_cons, List.mem_cons] at h
    push_neg at h
    rw [mapSet, if_neg (fun hek : e.1 = k => h.1 hek.symm), ih h.2, List.cons_append]

theorem keys_mapDelete {α : Type} (m : List (String × α)) (k : String) :
    (mapDelete m k).map Prod.fst = removeKey (m.map Prod.fst) k := by
  induction m with
  | nil => simp [mapDelete, removeKey]
  | cons e rest ih =>
    by_cases h : e.1 = k
    · simp [mapDelete, removeKey, h]
    · simp [mapDelete, removeKey, h, ih]

theorem removeKey_eq_erase (l : List String) (k : String) :
    removeKey l k = l.erase k := by
  induction l with
  | nil => simp [removeKey]
  | cons x rest ih =>
    by_cases h : x = k
    · simp [removeKey, h, List.erase_cons]
    · simp [removeKey, h, List.erase_cons, ih]

theorem removeKey_not_mem {l : List String} {k : String} (h : k ∉ l) :
    removeKey l k = l := by
  rw [removeKey_eq_erase]
  exact List.erase_of_not_mem h

theorem mapGet_mapDelete_self {α : Type} {m : List (String × α)} {k : String}
    (hnd : (m.map Prod.fst).Nodup) : mapGet (mapDelete m k) k = none := by
  induction m with
  | nil => simp [mapDelete, mapGet]
  | cons e rest ih =>
    rw [List.map_cons, List.nodup_cons] at hnd
    by_cases h : e.1 = k
    · rw [mapDelete, if_pos h, mapGet_eq_none_iff]
      exact h ▸ hnd.1
    · simp [mapDelete, h, mapGet, ih hnd.2]

/-! ### Concrete states used by several claims -/

/-- The three-entry tagged store from the spec's tag-deletion test. -/
def taggedStore : MemoryState :=
  runOps (initState ⟨none, none, some .lru⟩)
    [.set "k1" (.val 1) none (some ["t1", "t2"]) 0,
     .set "k2" (.val 2) none (some ["t2", "t3"]) 0,
     .set "k3" (.val 3) none (some ["t3"]) 0]

/-- The LRU scenario of the spec: `maxEntries = 3`, insert A, B, C, read A,
insert D. -/
def lruScenario : MemoryState :=
  runOps (initState ⟨none, some 3, some .lru⟩)
    [.set "A" (.val 1) none none 0, .set "B" (.val 2) none none 1,
     .set "C" (.val 3) none none 2, .get "A" 3, .set "D" (.val 4) none none 4]

/-! ### Claim theorems -/

/-- Claim C1 (code bug): the capacity invariant fails on the empty-string
key. With `maxSize = 1` under LRU, setting key `""` and then key `"b"`
leaves the map with 2 entries: `evict()` shifts `""` off `accessOrder` but
the JS-truthiness guard `if (keyToRemove)` rejects the empty string, so no
entry is deleted before the insert. -/
theorem memory_capacity_empty_key_eval :
    (resolveOptions ⟨none, some 1, some .lru⟩).maxSize = some 1
    ∧ (runOps (initState ⟨none, some 1, some .lru⟩)
        [.set "" (.val 1) none none 0, .set "b" (.val 2) none none 0]).cache.length = 2 := by
  decide

/-- Claim C6 (counterexample): calling `set` with `ttlSeconds = 0` on a
store whose default TTL is 0 stores an entry with **no** `expiresAt`
(`ttl ? ...` treats 0 as absent), not `expiresAt = now + 0 * 1000` as the
claim states. -/
theorem memory_ttl_zero_counterexample :
    (mapGet (adapterSet (initState ⟨none, none, none⟩) "k" (.val 1) (some 0) none 5).cache
        "k").map CacheItem.expiresAt = some none
    ∧ (mapGet (adapterSet (initState ⟨none, none, none⟩) "k" (.val 1) (some 0) none 5).cache
        "k").map CacheItem.expiresAt ≠ some (some (5 + 0 * 1000)) := by
  decide

/-- Claim C7 (counterexample): under the LFU strategy `accessOrder` is never
maintained — after a single `set` the map holds key `"a"` but `accessOrder`
is empty, so the ordered sequence does not contain the same key set as the
mapping. -/
theorem memory_accessOrder_lfu_counterexample :
    (adapterSet (initState ⟨none, none, some .lfu⟩) "a" (.val 1) none none 0).accessOrder = []
    ∧ "a" ∈ (adapterSet (initState ⟨none, none, some .lfu⟩) "a" (.val 1) none none 0).cache.map
        Prod.fst
    ∧ ¬ (adapterSet (initState ⟨none, none, some .lfu⟩) "a" (.val 1) none none
        0).accessOrder.Perm
        ((adapterSet (initState ⟨none, none, some .lfu⟩) "a" (.val 1) none none 0).cache.map
          Prod.fst) := by
  refine ⟨by decide, by decide, ?_⟩
  intro h
  have := h.length_eq
  simp [adapterSet, initState, resolveOptions, evict, mapSet] at this

/-- After `set`, the key maps to exactly the freshly built item, in every
branch (overwrite, plain insert, insert with eviction). -/
theorem mapGet_adapterSet_self (st : MemoryState) (k : String) (v : JSVal)
    (t : Option Nat) (tg : Option (List String)) (now : Nat) :
    mapGet (adapterSet st k v t tg now).cache k =
      some { value := v, expiresAt := computeExpiresAt st.opts.ttl t now,
             accessedAt := now, accessCount := 0, tags := tg } := by
  unfold adapterSet
  dsimp only
  split
  · split <;> simp [mapGet_mapSet_self]
  · split <;> simp [mapGet_mapSet_self]

/-- Claim C6 (amended): `set(key, value, ttlSeconds, tags)` stores the key
with `expiresAt = now + ttlSeconds * 1000` when `ttlSeconds` is given and
nonzero; when `ttlSeconds` is absent **or zero** (zero is falsy and falls
through), `expiresAt` is `now + defaultTtl * 1000` if the store's default
TTL is positive and unset otherwise. -/
theorem memory_set_expiry_amended (st : MemoryState) (k : String) (v : JSVal)
    (t : Option Nat) (tg : Option (List String)) (now : Nat) :
    ∃ it : CacheItem,
      mapGet (adapterSet st k v t tg now).cache k = some it
      ∧ (∀ n : Nat, t = some n → n ≠ 0 → it.expiresAt = some (now + n * 1000))
      ∧ ((t = none ∨ t = some 0) → 0 < st.opts.ttl →
          it.expiresAt = some (now + st.opts.ttl * 1000))
      ∧ ((t = none ∨ t = some 0) → st.opts.ttl = 0 → it.expiresAt = none) := by
  refine ⟨_, mapGet_adapterSet_self st k v t tg now, ?_, ?_, ?_⟩
  · intro n hn hnz
    subst hn
    simp [computeExpiresAt, hnz]
  · rintro (ht | ht) hpos <;> subst ht <;>
      simp [computeExpiresAt, hpos, Nat.pos_iff_ne_zero.mp hpos]
  · rintro (ht | ht) hzero <;> subst ht <;> simp [computeExpiresAt, hzero]

/-- Witness for C6's amended theorem at a concrete input: a `set` with
`ttl = 2` seconds at `now = 5` stores `expiresAt = 5 + 2000`. -/
theorem memory_set_expiry_amended_witness :
    ∃ it : CacheItem,
      mapGet (adapterSet (initState ⟨none, none, none⟩) "k" (.val 1) (some 2) none 5).cache
          "k" = some it
      ∧ it.expiresAt = some (5 + 2 * 1000) := by
  obtain ⟨it, h1, h2, h3, h4⟩ :=
    memory_set_expiry_amended (initState ⟨none, none, none⟩) "k" (.val 1) (some 2) none 5
  exact ⟨it, h1, h2 2 rfl (by decide)⟩

/-- Claim C10: the constructor replaces falsy options with defaults —
`maxSize: 0` resolves to `Infinity` (unbounded, so `set` never evicts and
only appends), `ttl: 0` resolves to no default expiry, and the cleanup
timer is started exactly when the resolved default TTL is positive. -/
theorem memory_constructor_falsy_defaults :
    (resolveOptions ⟨some 0, some 0, none⟩).maxSize = none
    ∧ (resolveOptions ⟨some 0, some 0, none⟩).ttl = 0
    ∧ (resolveOptions ⟨some 0, some 0, none⟩).strategy = .lru
    ∧ cleanupStarted ⟨some 0, some 0, none⟩ = false
    ∧ (∀ o : MemoryAdapterOptions, cleanupStarted o = true ↔ 0 < (resolveOptions o).ttl)
    ∧ (∀ (st : MemoryState) (k : String) (v : JSVal) (t : Option Nat)
        (tg : Option (List String)) (now : Nat),
        st.opts.maxSize = none → mapGet st.cache k = none →
        (adapterSet st k v t tg now).cache =
          st.cache ++ [(k, { value := v, expiresAt := computeExpiresAt st.opts.ttl t now,
                             accessedAt := now, accessCount := 0, tags := tg })])
    ∧ (mapGet (adapterSet (initState ⟨some 0, some 0, none⟩) "k" (.val 1) none none 3).cache
        "k").map CacheItem.expiresAt = some none := by
  refine ⟨by decide, by decide, by decide, by decide, ?_, ?_, by decide⟩
  · intro o
    simp [cleanupStarted]
  · intro st k v t tg now hm hg
    unfold adapterSet
    dsimp only
    rw [hg, hm]
    simp only [Option.isSome_none, Bool.false_eq_true, if_false]
    rw [mapSet_not_mem _ ((mapGet_eq_none_iff _ _).mp hg)]
    split <;> rfl

/-- Witness for C10 at a concrete input: with `maxSize: 0` the store is
unbounded and a fresh `set` purely appends. -/
theorem memory_constructor_falsy_defaults_witness :
    (adapterSet (initState ⟨some 0, some 0, none⟩) "x" (.val 2) none none 7).cache =
      (initState ⟨some 0, some 0, none⟩).cache ++
        [("x", { value := .val 2,
                 expiresAt := computeExpiresAt (initState ⟨some 0, some 0, none⟩).opts.ttl none 7,
                 accessedAt := 7, accessCount := 0, tags := none })] :=
  memory_constructor_falsy_defaults.2.2.2.2.2.1
    (initState ⟨some 0, some 0, none⟩) "x" (.val 2) none none 7 (by decide) (by decide)

/-- Claim C4: an entry whose (nonzero) `expiresAt` lies strictly in the
past is lazily expired — `get` returns `undefined` and removes the entry
from both the map and `accessOrder` (the resulting state is exactly
`delete`'s), `has` performs the same deletion and returns `false`, and a
subsequent `has` on the resulting state is `false`. -/
theorem memory_lazy_expiry (st : MemoryState) (k : String) (now : Nat) (it : CacheItem)
    (e : Nat) (hfind : mapGet st.cache k = some it) (he : it.expiresAt = some e)
    (hpos : 0 < e) (hlt : e < now) (hnd : (st.cache.map Prod.fst).Nodup) :
    adapterGet st k now = (.undef, adapterDelete st k)
    ∧ adapterHas st k now = (false, adapterDelete st k)
    ∧ (adapterHas (adapterDelete st k) k now).1 = false := by
  have hexp : isExpired it now = true := by
    simp [isExpired, he]
    omega
  refine ⟨?_, ?_, ?_⟩
  · unfold adapterGet
    rw [hfind]
    simp [hexp, adapterDelete]
  · unfold adapterHas
    rw [hfind]
    simp [hexp, adapterDelete]
  · unfold adapterHas
    have : mapGet (adapterDelete st k).cache k = none := mapGet_mapDelete_self hnd
    rw [this]

/-- Witness for C4 at a concrete input: a key set with `ttl = 1` second at
time 0 is expired when read at `now = 1500` ms. -/
theorem memory_lazy_expiry_witness :
    adapterGet (adapterSet (initState ⟨none, none, some .lru⟩) "k" (.val 7) (some 1) none 0)
        "k" 1500 =
      (.undef,
        adapterDelete (adapterSet (initState ⟨none, none, some .lru⟩) "k" (.val 7) (some 1)
          none 0) "k") :=
  (memory_lazy_expiry
    (adapterSet (initState ⟨none, none, some .lru⟩) "k" (.val 7) (some 1) none 0) "k" 1500
    { value := .val 7, expiresAt := some 1000, accessedAt := 0, accessCount := 0, tags := none }
    1000 (by decide) (by decide) (by decide) (by decide) (by decide)).1

theorem matchesTags_nil (e : String × CacheItem) : matchesTags [] e = false := by
  unfold matchesTags
  cases e.2.tags with
  | none => rfl
  | some ts => simp

theorem cache_foldl_adapterDelete (ks : List String) (st : MemoryState) :
    (ks.foldl adapterDelete st).cache = ks.foldl mapDelete st.cache := by
  induction ks generalizing st with
  | nil => rfl
  | cons k rest ih => simp [List.foldl_cons, ih, adapterDelete]

theorem foldl_mapDelete_cons {α : Type} (e : String × α) (m : List (String × α))
    (ks : List String) (h : e.1 ∉ ks) :
    ks.foldl mapDelete (e :: m) = e :: ks.foldl mapDelete m := by
  induction ks generalizing m with
  | nil => rfl
  | cons k rest ih =>
    rw [List.mem_cons] at h
    push_neg at h
    simp only [List.foldl_cons]
    rw [show mapDelete (e :: m) k = e :: mapDelete m k from by simp [mapDelete, h.1],
      ih _ h.2]

/-- Deleting, in order, the keys of the entries selected by `p` from a map
with distinct keys leaves exactly the entries not selected by `p`. -/
theorem foldl_mapDelete_filter {α : Type} (p : String × α → Bool) (m : List (String × α))
    (hnd : (m.map Prod.fst).Nodup) :
    ((m.filter p).map Prod.fst).foldl mapDelete m = m.filter (fun e => !p e) := by
  induction m with
  | nil => rfl
  | cons e rest ih =>
    rw [List.map_cons, List.nodup_cons] at hnd
    by_cases hp : p e = true
    · rw [List.filter_cons_of_pos hp, List.map_cons, List.foldl_cons,
        show mapDelete (e :: rest) e.1 = rest from by simp [mapDelete],
        ih hnd.2, List.filter_cons_of_neg (by simp [hp])]
    · have he : e.1 ∉ (rest.filter p).map Prod.fst := by
        intro hmem
        apply hnd.1
        obtain ⟨x, hx, hfst⟩ := List.mem_map.mp hmem
        exact hfst ▸ List.mem_map_of_mem Prod.fst (List.mem_of_mem_filter hx)
      rw [List.filter_cons_of_neg (by simp [hp]), foldl_mapDelete_cons e rest _ he,
        ih hnd.2, List.filter_cons_of_pos (by simp [hp])]

/-- Claim C5: `deleteByTags` deletes exactly the entries whose tag set
intersects the given tags (OR across tags), returns the number of entries
so deleted, and an empty tag list deletes nothing, returns 0 and leaves the
store untouched. -/
theorem memory_deleteByTags_or (st : MemoryState) (tags : List String)
    (hnd : (st.cache.map Prod.fst).Nodup) :
    (adapterDeleteByTags st tags).1 = (st.cache.filter (matchesTags tags)).length
    ∧ (adapterDeleteByTags st tags).2.cache = st.cache.filter (fun e => !matchesTags tags e)
    ∧ (tags = [] → adapterDeleteByTags st tags = (0, st)) := by
  by_cases h : tags.isEmpty
  · rw [List.isEmpty_iff] at h
    subst h
    have hf : st.cache.filter (matchesTags []) = [] :=
      List.filter_eq_nil_iff.mpr (fun e _ => by simp [matchesTags_nil])
    have hf' : st.cache.filter (fun e => !matchesTags [] e) = st.cache :=
      List.filter_eq_self.mpr (fun e _ => by simp [matchesTags_nil])
    refine ⟨?_, ?_, fun _ => by simp [adapterDeleteByTags]⟩
    · simp [adapterDeleteByTags, hf]
    · simp [adapterDeleteByTags, hf']
  · have hne : tags.isEmpty = false := by simpa using h
    refine ⟨?_, ?_, fun ht => absurd (ht ▸ rfl) h⟩
    · simp [adapterDeleteByTags, hne]
    · simp only [adapterDeleteByTags, hne, Bool.false_eq_true, if_false]
      rw [cache_foldl_adapterDelete, foldl_mapDelete_filter _ _ hnd]

/-- Witness for C5 at the spec's concrete input: of entries tagged
`[t1,t2]`, `[t2,t3]`, `[t3]`, deleting by `[t2]` removes exactly the first
two and reports 2. -/
theorem memory_deleteByTags_or_witness :
    (adapterDeleteByTags taggedStore ["t2"]).1 =
      (taggedStore.cache.filter (matchesTags ["t2"])).length
    ∧ (adapterDeleteByTags taggedStore ["t2"]).2.cache =
      taggedStore.cache.filter (fun e => !matchesTags ["t2"] e) := by
  have h := memory_deleteByTags_or taggedStore ["t2"] (by decide)
  exact ⟨h.1, h.2.1⟩

/-- When every level misses, the cascade returns `undefined` and each level
is changed only by its own `get` (no `set` is applied anywhere). -/
theorem mlGet_all_miss {σ : Type} (impl : AdapterImpl σ) (key : String) (now : Nat) :
    ∀ levels : List σ, (∀ x ∈ levels, (impl.get x key now).1 = JSVal.undef) →
      mlGet impl levels key now =
        (JSVal.undef, levels.map (fun x => (impl.get x key now).2)) := by
  intro levels h
  induction levels with
  | nil => rfl
  | cons s rest ih =>
    have hs := h s (List.mem_cons_self s rest)
    have hrest := ih (fun x hx => h x (List.mem_cons_of_mem s hx))
    simp [mlGet, hs, hrest]

/-- Claim C3: `MultiLevelCache.get` consults levels in index order. If the
levels split as `pre ++ s :: post` with every level of `pre` missing and
`s` returning a defined `v`, the cascade returns `v`, each level of `pre`
is updated by its own `get` and then receives the backfill
`set(key, v)` — no TTL, no tags — and the levels after the hit are
untouched. If every level misses, the result is `undefined` and no level
receives any `set`. -/
theorem multilevel_get_cascade {σ : Type} (impl : AdapterImpl σ) (key : String) (now : Nat) :
    (∀ (pre post : List σ) (s : σ) (v : JSVal),
      (∀ x ∈ pre, (impl.get x key now).1 = JSVal.undef) →
      (impl.get s key now).1 = v → v ≠ JSVal.undef →
      mlGet impl (pre ++ s :: post) key now =
        (v, pre.map (fun x => impl.set (impl.get x key now).2 key v none none now)
            ++ (impl.get s key now).2 :: post))
    ∧ (∀ levels : List σ, (∀ x ∈ levels, (impl.get x key now).1 = JSVal.undef) →
        mlGet impl levels key now =
          (JSVal.undef, levels.map (fun x => (impl.get x key now).2))) := by
  constructor
  · intro pre post s v hpre hs hv
    induction pre with
    | nil => simp [mlGet, hs, hv]
    | cons x rest ih =>
      have hx := hpre x (List.mem_cons_self x rest)
      have ih' := ih (fun y hy => hpre y (List.mem_cons_of_mem x hy))
      simp [mlGet, hx, ih', hv]
  · exact mlGet_all_miss impl key now

/-- Witness for C3 at the spec's backfill scenario: two memory levels where
only level 1 holds `"k"`; `get` returns the value, level 0 is backfilled
with it, level 1 keeps it. -/
theorem multilevel_get_cascade_witness :
    mlGet memoryImpl
        [initState ⟨none, none, none⟩,
         adapterSet (initState ⟨none, none, none⟩) "k" (.val 7) none none 0] "k" 1 =
      (JSVal.val 7,
        [memoryImpl.set (memoryImpl.get (initState ⟨none, none, none⟩) "k" 1).2 "k"
            (JSVal.val 7) none none 1,
         (memoryImpl.get (adapterSet (initState ⟨none, none, none⟩) "k" (.val 7) none none 0)
            "k" 1).2]) := by
  have h := (multilevel_get_cascade memoryImpl "k" 1).1
    [initState ⟨none, none, none⟩] []
    (adapterSet (initState ⟨none, none, none⟩) "k" (.val 7) none none 0) (JSVal.val 7)
    (by decide) (by decide) (by decide)
  simpa using h

/-- Claim C8 (spec-modelled): `MultiLevelCache.deleteByTags` fans the same
tag list out to every level and returns the sum of the per-level deleted
counts; concretely, over two copies of the three-entry tagged store,
deleting by `[t2]` reports 2 + 2. -/
theorem multilevel_deleteByTags_fanout :
    (∀ {σ : Type} (impl : AdapterImpl σ) (levels : List σ) (tags : List String),
      mlDeleteByTags impl levels tags =
        ((levels.map (fun s => (impl.delByTags s tags).1)).sum,
         levels.map (fun s => (impl.delByTags s tags).2)))
    ∧ (mlDeleteByTags memoryImpl [taggedStore, taggedStore] ["t2"]).1 = 2 + 2 := by
  constructor
  · intro σ impl levels tags
    induction levels with
    | nil => rfl
    | cons s rest ih => simp [mlDeleteByTags, ih]
  · decide

theorem mapSet_forall {α : Type} {P : α → Prop} (k : String) (v : α) :
    ∀ m : List (String × α), (∀ x ∈ m, P x.2) → P v → ∀ x ∈ mapSet m k v, P x.2 := by
  intro m
  induction m with
  | nil =>
    intro _ hv x hx
    simp only [mapSet, List.mem_singleton] at hx
    subst hx
    exact hv
  | cons e rest ih =>
    intro hm hv x hx
    simp only [mapSet] at hx
    by_cases h : e.1 = k
    · rw [if_pos h] at hx
      rcases List.mem_cons.mp hx with rfl | hx'
      · exact hv
      · exact hm _ (List.mem_cons_of_mem _ hx')
    · rw [if_neg h] at hx
      rcases List.mem_cons.mp hx with rfl | hx'
      · exact hm _ (List.mem_cons_self _ _)
      · exact ih (fun y hy => hm y (List.mem_cons_of_mem _ hy)) hv _ hx'

theorem getMany_values_defined (now : Nat) :
    ∀ (keys : List String) (p : List (String × JSVal) × MemoryState),
      (∀ kv ∈ p.1, kv.2 ≠ JSVal.undef) →
      ∀ kv ∈ (keys.foldl (getManyStep now) p).1, kv.2 ≠ JSVal.undef := by
  intro keys
  induction keys with
  | nil => intro p hp kv hkv; exact hp kv hkv
  | cons k rest ih =>
    intro p hp kv hkv
    rw [List.foldl_cons] at hkv
    refine ih _ ?_ kv hkv
    unfold getManyStep
    by_cases hr : (adapterGet p.2 k now).1 = JSVal.undef
    · simpa [hr] using hp
    · simpa [hr] using mapSet_forall k _ p.1 hp hr

/-- Claim C9: a stored `undefined` is indistinguishable from absence on the
read path — every value in a `getMany` result is defined (so a key holding
`undefined` is omitted, as in the concrete second conjunct), and the
multi-level `get` treats a level returning `undefined` as a miss: with
level 0 holding `undefined` and level 1 holding `7`, it falls through to
level 1, returns 7 and backfills 7 (never `undefined`); when every level
returns `undefined`, no backfill `set` is applied at all. -/
theorem memory_undefined_indistinguishable :
    (∀ (st : MemoryState) (keys : List String) (now : Nat) (kv : String × JSVal),
      kv ∈ (adapterGetMany st keys now).1 → kv.2 ≠ JSVal.undef)
    ∧ (adapterGetMany (adapterSet (initState ⟨none, none, none⟩) "k" JSVal.undef none none 0)
        ["k"] 1).1 = []
    ∧ (mlGet memoryImpl
        [adapterSet (initState ⟨none, none, none⟩) "k" JSVal.undef none none 0,
         adapterSet (initState ⟨none, none, none⟩) "k" (.val 7) none none 0] "k" 1).1 =
      JSVal.val 7
    ∧ ((mlGet memoryImpl
        [adapterSet (initState ⟨none, none, none⟩) "k" JSVal.undef none none 0,
         adapterSet (initState ⟨none, none, none⟩) "k" (.val 7) none none 0] "k" 1).2.map
          (fun s => (mapGet s.cache "k").map CacheItem.value)) =
      [some (JSVal.val 7), some (JSVal.val 7)]
    ∧ (∀ {σ : Type} (impl : AdapterImpl σ) (levels : List σ) (key : String) (now : Nat),
        (∀ x ∈ levels, (impl.get x key now).1 = JSVal.undef) →
        mlGet impl levels key now =
          (JSVal.undef, levels.map (fun x => (impl.get x key now).2))) := by
  refine ⟨?_, by decide, by decide, by decide, ?_⟩
  · intro st keys now kv hkv
    exact getMany_values_defined now keys ([], st) (by simp) kv hkv
  · intro σ impl levels key now h
    exact mlGet_all_miss impl key now levels h

/-- Witness for C9 at a concrete input: the one defined entry of a
`getMany` result is not `undefined`. -/
theorem memory_undefined_indistinguishable_witness :
    ("a", JSVal.val 1) ∈
      (adapterGetMany (adapterSet (initState ⟨none, none, none⟩) "a" (.val 1) none none 0)
        ["a"] 1).1
    ∧ (JSVal.val 1 : JSVal) ≠ JSVal.undef :=
  ⟨by decide,
    memory_undefined_indistinguishable.1
      (adapterSet (initState ⟨none, none, none⟩) "a" (.val 1) none none 0) ["a"] 1
      ("a", JSVal.val 1) (by decide)⟩

/-- The spec's ordering-structure invariant: `accessOrder` is a permutation
of the map's key list (same key set, each key exactly once), keys are
distinct, and the empty-string key — which `evict`'s truthiness guard
mishandles — is absent. -/
def SyncInv (st : MemoryState) : Prop :=
  st.accessOrder.Perm (st.cache.map Prod.fst)
  ∧ (st.cache.map Prod.fst).Nodup
  ∧ "" ∉ st.cache.map Prod.fst

theorem mapDelete_sublist {α : Type} (m : List (String × α)) (k : String) :
    (mapDelete m k).Sublist m := by
  induction m with
  | nil => simp [mapDelete]
  | cons e rest ih =>
    by_cases h : e.1 = k
    · rw [show mapDelete (e :: rest) k = rest from by simp [mapDelete, h]]
      exact List.sublist_cons_self e rest
    · rw [show mapDelete (e :: rest) k = e :: mapDelete rest k from by simp [mapDelete, h]]
      exact ih.cons₂ e

theorem SyncInv_adapterDelete {st : MemoryState} (h : SyncInv st) (k : String) :
    SyncInv (adapterDelete st k) := by
  obtain ⟨hperm, hnd, hne⟩ := h
  unfold adapterDelete SyncInv
  dsimp only
  rw [keys_mapDelete, removeKey_eq_erase, removeKey_eq_erase]
  exact ⟨hperm.erase k, hnd.erase k, fun hm => hne (List.mem_of_mem_erase hm)⟩

theorem keys_evict_subset (st : MemoryState) :
    ∀ x, x ∈ (evict st).cache.map Prod.fst → x ∈ st.cache.map Prod.fst := by
  intro x hx
  unfold evict at hx
  repeat' split at hx
  all_goals
    first
      | exact hx
      | exact ((mapDelete_sublist st.cache _).map Prod.fst).subset hx

theorem opts_evict (st : MemoryState) : (evict st).opts = st.opts := by
  unfold evict
  repeat' split
  all_goals rfl

theorem SyncInv_evict {st : MemoryState} (h : SyncInv st)
    (hstrat : st.opts.strategy = .fifo ∨ st.opts.strategy = .lru) :
    SyncInv (evict st) := by
  obtain ⟨hperm, hnd, hne⟩ := h
  by_cases hlen : st.cache.length = 0
  · unfold evict
    rw [if_pos hlen]
    exact ⟨hperm, hnd, hne⟩
  · have hbranch :
        evict st =
          match st.accessOrder with
          | [] => st
          | k :: rest =>
            if k ≠ "" then
              { st with cache := mapDelete st.cache k, accessOrder := removeKey rest k }
            else { st with accessOrder := rest } := by
      unfold evict
      rw [if_neg hlen]
      rcases hstrat with hs | hs <;> rw [hs]
    rw [hbranch]
    cases hao : st.accessOrder with
    | nil =>
      show SyncInv st
      exact ⟨hperm, hnd, hne⟩
    | cons k₀ rest =>
      have hk₀mem : k₀ ∈ st.cache.map Prod.fst :=
        hperm.mem_iff.mp (hao ▸ List.mem_cons_self k₀ rest)
      have hk₀ : k₀ ≠ "" := fun h0 => hne (h0 ▸ hk₀mem)
      have haoNodup : (k₀ :: rest).Nodup := hao ▸ hperm.nodup_iff.mpr hnd
      have hk₀rest : k₀ ∉ rest := (List.nodup_cons.mp haoNodup).1
      show SyncInv
        (if k₀ ≠ "" then
          { st with cache := mapDelete st.cache k₀, accessOrder := removeKey rest k₀ }
        else { st with accessOrder := rest })
      rw [if_pos hk₀, removeKey_not_mem hk₀rest]
      refine ⟨?_, ?_, ?_⟩
      · show rest.Perm ((mapDelete st.cache k₀).map Prod.fst)
        rw [keys_mapDelete, removeKey_eq_erase]
        have h1 : (k₀ :: rest).Perm (k₀ :: (st.cache.map Prod.fst).erase k₀) :=
          (hao ▸ hperm).trans (List.perm_cons_erase hk₀mem)
        exact h1.cons_inv
      · show ((mapDelete st.cache k₀).map Prod.fst).Nodup
        rw [keys_mapDelete, removeKey_eq_erase]
        exact hnd.erase k₀
      · show "" ∉ (mapDelete st.cache k₀).map Prod.fst
        rw [keys_mapDelete, removeKey_eq_erase]
        exact fun hm => hne (List.mem_of_mem_erase hm)

theorem perm_updateAccessOrder {ao keys : List String} {k : String}
    (hperm : ao.Perm keys) (hk : k ∈ keys) :
    (updateAccessOrder ao k).Perm keys := by
  unfold updateAccessOrder
  rw [removeKey_eq_erase]
  have hk' : k ∈ ao := hperm.mem_iff.mpr hk
  exact (List.perm_append_singleton k (ao.erase k)).trans
    ((List.perm_cons_erase hk').symm.trans hperm)

theorem SyncInv_adapterGet {st : MemoryState} (h : SyncInv st) (k : String) (now : Nat) :
    SyncInv (adapterGet st k now).2 := by
  obtain ⟨hperm, hnd, hne⟩ := h
  unfold adapterGet
  cases hfind : mapGet st.cache k with
  | none =>
    show SyncInv st
    exact ⟨hperm, hnd, hne⟩
  | some it =>
    have hkmem : k ∈ st.cache.map Prod.fst := mem_of_mapGet_eq_some hfind
    dsimp only
    by_cases hexp : isExpired it now
    · rw [if_pos hexp]
      exact SyncInv_adapterDelete ⟨hperm, hnd, hne⟩ k
    · rw [if_neg hexp]
      dsimp only
      by_cases hs : st.opts.strategy = .lru
      · rw [if_pos hs]
        unfold SyncInv
        dsimp only
        rw [keys_mapSet_mem _ hkmem]
        exact ⟨perm_updateAccessOrder hperm hkmem, hnd, hne⟩
      · rw [if_neg hs]
        unfold SyncInv
        dsimp only
        rw [keys_mapSet_mem _ hkmem]
        exact ⟨hperm, hnd, hne⟩

theorem SyncInv_adapterHas {st : MemoryState} (h : SyncInv st) (k : String) (now : Nat) :
    SyncInv (adapterHas st k now).2 := by
  obtain ⟨hperm, hnd, hne⟩ := h
  unfold adapterHas
  cases hfind : mapGet st.cache k with
  | none =>
    show SyncInv st
    exact ⟨hperm, hnd, hne⟩
  | some it =>
    dsimp only
    by_cases hexp : isExpired it now
    · rw [if_pos hexp]
      exact SyncInv_adapterDelete ⟨hperm, hnd, hne⟩ k
    · rw [if_neg hexp]
      show SyncInv st
      exact ⟨hperm, hnd, hne⟩

theorem SyncInv_adapterSet {st : MemoryState} (h : SyncInv st) {k : String} (hk : k ≠ "")
    (hstrat : st.opts.strategy = .fifo ∨ st.opts.strategy = .lru)
    (v : JSVal) (ttl : Option Nat) (tags : Option (List String)) (now : Nat) :
    SyncInv (adapterSet st k v ttl tags now) := by
  obtain ⟨hperm, hnd, hne⟩ := h
  unfold adapterSet
  dsimp only
  by_cases hex : (mapGet st.cache k).isSome
  · rw [if_pos hex]
    have hkmem : k ∈ st.cache.map Prod.fst := by
      cases hfind : mapGet st.cache k with
      | none => rw [hfind] at hex; simp at hex
      | some it => exact mem_of_mapGet_eq_some hfind
    by_cases hs : st.opts.strategy = .lru
    · rw [if_pos hs]
      unfold SyncInv
      dsimp only
      rw [keys_mapSet_mem _ hkmem]
      exact ⟨perm_updateAccessOrder hperm hkmem, hnd, hne⟩
    · rw [if_neg hs]
      unfold SyncInv
      dsimp only
      rw [keys_mapSet_mem _ hkmem]
      exact ⟨hperm, hnd, hne⟩
  · rw [if_neg hex]
    have hknot : k ∉ st.cache.map Prod.fst :=
      (mapGet_eq_none_iff _ _).mp (Option.not_isSome_iff_eq_none.mp hex)
    have hfacts :
        SyncInv (match st.opts.maxSize with
          | some m => if m ≤ st.cache.length then evict st else st
          | none => st)
        ∧ ∀ x, x ∈ (match st.opts.maxSize with
            | some m => if m ≤ st.cache.length then evict st else st
            | none => st).cache.map Prod.fst → x ∈ st.cache.map Prod.fst := by
      cases st.opts.maxSize with
      | none =>
        dsimp only
        exact ⟨⟨hperm, hnd, hne⟩, fun x hx => hx⟩
      | some m =>
        dsimp only
        by_cases hm : m ≤ st.cache.length
        · rw [if_pos hm]
          exact ⟨SyncInv_evict ⟨hperm, hnd, hne⟩ hstrat, keys_evict_subset st⟩
        · rw [if_neg hm]
          exact ⟨⟨hperm, hnd, hne⟩, fun x hx => hx⟩
    obtain ⟨⟨hperm₁, hnd₁, hne₁⟩, hsub⟩ := hfacts
    have hknot₁ :
        k ∉ (match st.opts.maxSize with
          | some m => if m ≤ st.cache.length then evict st else st
          | none => st).cache.map Prod.fst := fun hm => hknot (hsub _ hm)
    rw [if_pos hstrat]
    unfold SyncInv
    dsimp only
    rw [mapSet_not_mem _ hknot₁, List.map_append]
    refine ⟨?_, ?_, ?_⟩
    · exact hperm₁.append_right _
    · rw [List.nodup_append]
      exact ⟨hnd₁, List.nodup_singleton k, by simpa using hknot₁⟩
    · rw [List.mem_append]
      rintro (hm | hm)
      · exact hne₁ hm
      · simp at hm
        exact hk hm.symm

theorem opts_adapterDelete (st : MemoryState) (k : String) :
    (adapterDelete st k).opts = st.opts := rfl

theorem opts_adapterGet (st : MemoryState) (k : String) (now : Nat) :
    ((adapterGet st k now).2).opts = st.opts := by
  unfold adapterGet
  repeat' split
  all_goals rfl

theorem opts_adapterHas (st : MemoryState) (k : String) (now : Nat) :
    ((adapterHas st k now).2).opts = st.opts := by
  unfold adapterHas
  repeat' split
  all_goals rfl

theorem opts_adapterSet (st : MemoryState) (k : String) (v : JSVal) (ttl : Option Nat)
    (tags : Option (List String)) (now : Nat) :
    (adapterSet st k v ttl tags now).opts = st.opts := by
  unfold adapterSet
  repeat' split
  all_goals simp [opts_evict]

theorem opts_foldl_adapterDelete (ks : List String) (st : MemoryState) :
    (ks.foldl adapterDelete st).opts = st.opts := by
  induction ks generalizing st with
  | nil => rfl
  | cons k rest ih => simp [List.foldl_cons, ih, opts_adapterDelete]

theorem opts_adapterKeys (st : MemoryState) (now : Nat) :
    ((adapterKeys st now).2).opts = st.opts := by
  unfold adapterKeys
  exact opts_foldl_adapterDelete _ st

theorem opts_adapterClear (st : MemoryState) : (adapterClear st).opts = st.opts := rfl

theorem opts_adapterDeleteByTags (st : MemoryState) (tags : List String) :
    ((adapterDeleteByTags st tags).2).opts = st.opts := by
  unfold adapterDeleteByTags
  split
  · rfl
  · exact opts_foldl_adapterDelete _ st

theorem getManyStep_snd (now : Nat) (p : List (String × JSVal) × MemoryState) (k : String) :
    (getManyStep now p k).2 = (adapterGet p.2 k now).2 := by
  unfold getManyStep
  dsimp only
  split <;> rfl

theorem opts_foldl_getManyStep (now : Nat) (keys : List String) :
    ∀ p : List (String × JSVal) × MemoryState,
      ((keys.foldl (getManyStep now) p).2).opts = p.2.opts := by
  induction keys with
  | nil => intro p; rfl
  | cons k rest ih =>
    intro p
    rw [List.foldl_cons, ih, getManyStep_snd, opts_adapterGet]

theorem opts_adapterSetMany (data : List (String × JSVal)) (ttl : Option Nat) (now : Nat) :
    ∀ st : MemoryState, (adapterSetMany st data ttl now).opts = st.opts := by
  induction data with
  | nil => intro st; rfl
  | cons e rest ih =>
    intro st
    unfold adapterSetMany at ih ⊢
    rw [List.foldl_cons, ih, opts_adapterSet]

theorem opts_runOp (st : MemoryState) (op : CacheOp) : (runOp st op).opts = st.opts := by
  cases op with
  | set k v ttl tags now => exact opts_adapterSet st k v ttl tags now
  | get k now => exact opts_adapterGet st k now
  | del k => exact opts_adapterDelete st k
  | has k now => exact opts_adapterHas st k now
  | keys now => exact opts_adapterKeys st now
  | clear => exact opts_adapterClear st
  | delByTags tags => exact opts_adapterDeleteByTags st tags
  | getMany ks now => exact opts_foldl_getManyStep now ks ([], st)
  | setMany data ttl now => exact opts_adapterSetMany data ttl now st

theorem SyncInv_foldl_adapterDelete (ks : List String) :
    ∀ st : MemoryState, SyncInv st → SyncInv (ks.foldl adapterDelete st) := by
  induction ks with
  | nil => intro st h; exact h
  | cons k rest ih =>
    intro st h
    rw [List.foldl_cons]
    exact ih _ (SyncInv_adapterDelete h k)

theorem SyncInv_adapterKeys {st : MemoryState} (h : SyncInv st) (now : Nat) :
    SyncInv (adapterKeys st now).2 := by
  unfold adapterKeys
  exact SyncInv_foldl_adapterDelete _ st h

theorem SyncInv_adapterClear (st : MemoryState) : SyncInv (adapterClear st) := by
  refine ⟨?_, ?_, ?_⟩ <;> simp [adapterClear]

theorem SyncInv_adapterDeleteByTags {st : MemoryState} (h : SyncInv st) (tags : List String) :
    SyncInv (adapterDeleteByTags st tags).2 := by
  unfold adapterDeleteByTags
  split
  · exact h
  · exact SyncInv_foldl_adapterDelete _ st h

theorem SyncInv_foldl_getManyStep (now : Nat) (keys : List String) :
    ∀ p : List (String × JSVal) × MemoryState, SyncInv p.2 →
      SyncInv ((keys.foldl (getManyStep now) p).2) := by
  induction keys with
  | nil => intro p h; exact h
  | cons k rest ih =>
    intro p h
    rw [List.foldl_cons]
    refine ih _ ?_
    rw [getManyStep_snd]
    exact SyncInv_adapterGet h k now

theorem SyncInv_adapterSetMany (ttl : Option Nat) (now : Nat) (data : List (String × JSVal)) :
    ∀ st : MemoryState, SyncInv st →
      (st.opts.strategy = .fifo ∨ st.opts.strategy = .lru) →
      (∀ e ∈ data, e.1 ≠ "") → SyncInv (adapterSetMany st data ttl now) := by
  induction data with
  | nil => intro st h _ _; exact h
  | cons e rest ih =>
    intro st h hstrat hkeys
    unfold adapterSetMany at ih ⊢
    rw [List.foldl_cons]
    refine ih _ ?_ ?_ ?_
    · exact SyncInv_adapterSet h (hkeys e (List.mem_cons_self e rest)) hstrat e.2 ttl none now
    · rw [opts_adapterSet]
      exact hstrat
    · exact fun x hx => hkeys x (List.mem_cons_of_mem e hx)

/-- Whether an operation's inserted keys are all nonempty (the restriction
forced by the `evict` truthiness slip on the empty-string key). -/
def opKeysNE : CacheOp → Bool
  | .set k _ _ _ _ => k != ""
  | .setMany data _ _ => data.all (fun e => e.1 != "")
  | _ => true

theorem SyncInv_runOp {st : MemoryState} (h : SyncInv st)
    (hstrat : st.opts.strategy = .fifo ∨ st.opts.strategy = .lru)
    {op : CacheOp} (hop : opKeysNE op = true) : SyncInv (runOp st op) := by
  cases op with
  | set k v ttl tags now =>
    have hk : k ≠ "" := by simpa [opKeysNE] using hop
    exact SyncInv_adapterSet h hk hstrat v ttl tags now
  | get k now => exact SyncInv_adapterGet h k now
  | del k => exact SyncInv_adapterDelete h k
  | has k now => exact SyncInv_adapterHas h k now
  | keys now => exact SyncInv_adapterKeys h now
  | clear => exact SyncInv_adapterClear st
  | delByTags tags => exact SyncInv_adapterDeleteByTags h tags
  | getMany ks now => exact SyncInv_foldl_getManyStep now ks ([], st) h
  | setMany data ttl now =>
    have hks : ∀ e ∈ data, e.1 ≠ "" := by
      intro e he
      have hall : data.all (fun e => e.1 != "") = true := hop
      have := List.all_eq_true.mp hall e he
      simpa using this
    exact SyncInv_adapterSetMany ttl now data st h hstrat hks

theorem SyncInv_runOps (ops : List CacheOp) :
    ∀ st : MemoryState, SyncInv st →
      (st.opts.strategy = .fifo ∨ st.opts.strategy = .lru) →
      (∀ op ∈ ops, opKeysNE op = true) → SyncInv (runOps st ops) := by
  induction ops with
  | nil => intro st h _ _; exact h
  | cons op rest ih =>
    intro st h hstrat hops
    unfold runOps at ih ⊢
    rw [List.foldl_cons]
    refine ih _ (SyncInv_runOp h hstrat (hops op (List.mem_cons_self op rest))) ?_
      (fun x hx => hops x (List.mem_cons_of_mem op hx))
    rw [opts_runOp]
    exact hstrat

/-- Claim C7 (amended): under the LRU and FIFO strategies, for every
operation sequence whose inserted keys are nonempty, `accessOrder` is a
permutation of the map's key list after every operation — the same key set
with each key exactly once (the key list itself being duplicate-free).
Under LFU the ordered sequence is not maintained at all (see the
counterexample), and an empty-string key breaks the sync through the same
`evict` truthiness slip recorded for C1. -/
theorem memory_accessOrder_sync_amended (o : MemoryAdapterOptions) (ops : List CacheOp)
    (hstrat : (resolveOptions o).strategy = .fifo ∨ (resolveOptions o).strategy = .lru)
    (hkeys : ∀ op ∈ ops, opKeysNE op = true) :
    (runOps (initState o) ops).accessOrder.Perm
      ((runOps (initState o) ops).cache.map Prod.fst)
    ∧ ((runOps (initState o) ops).cache.map Prod.fst).Nodup := by
  have h := SyncInv_runOps ops (initState o)
    ⟨by simp [initState], by simp [initState], by simp [initState]⟩ hstrat hkeys
  exact ⟨h.1, h.2.1⟩

/-- Witness for C7's amended theorem at a concrete input: an LRU store of
capacity 2 after a set, a get and an evicting set. -/
theorem memory_accessOrder_sync_amended_witness :
    (runOps (initState ⟨none, some 2, some .lru⟩)
        [.set "a" (.val 1) none none 0, .set "b" (.val 2) none none 1, .get "a" 2,
         .set "c" (.val 3) none none 3]).accessOrder.Perm
      ((runOps (initState ⟨none, some 2, some .lru⟩)
        [.set "a" (.val 1) none none 0, .set "b" (.val 2) none none 1, .get "a" 2,
         .set "c" (.val 3) none none 3]).cache.map Prod.fst)
    ∧ ((runOps (initState ⟨none, some 2, some .lru⟩)
        [.set "a" (.val 1) none none 0, .set "b" (.val 2) none none 1, .get "a" 2,
         .set "c" (.val 3) none none 3]).cache.map Prod.fst).Nodup :=
  memory_accessOrder_sync_amended ⟨none, some 2, some .lru⟩
    [.set "a" (.val 1) none none 0, .set "b" (.val 2) none none 1, .get "a" 2,
     .set "c" (.val 3) none none 3] (Or.inr rfl) (by decide)

/-! ### LRU recency: the access-time structure behind `accessOrder` -/

/-- The last-access time the store records for a key: `accessedAt`, written
by both `get` (refresh) and `set` (insert or overwrite); 0 for an absent
key. -/
def accessTimeOf (st : MemoryState) (k : String) : Nat :=
  match mapGet st.cache k with
  | some it => it.accessedAt
  | none => 0

/-- The LRU recency invariant: `accessOrder` is sorted by last-access time,
least recently accessed first — the front is always a key with the oldest
`accessedAt`. -/
def AccessInv (st : MemoryState) : Prop :=
  st.accessOrder.Pairwise (fun a b => accessTimeOf st a ≤ accessTimeOf st b)

/-- Every recorded access time is at most `t` (the clock has reached `t`). -/
def TimeBound (st : MemoryState) (t : Nat) : Prop :=
  ∀ e ∈ st.cache, e.2.accessedAt ≤ t

/-- The clock-indexed LRU recency invariant. -/
def ChronoInv (st : MemoryState) (t : Nat) : Prop :=
  AccessInv st ∧ TimeBound st t

/-- `Date.now()` is non-decreasing, starting from `t`, across the
access-recording operations of a sequence (`set`, `get`, `getMany`,
`setMany`; the other operations write no access times). -/
def chronoFrom : Nat → List CacheOp → Bool
  | _, [] => true
  | t, op :: rest =>
    match op with
    | .set _ _ _ _ now => decide (t ≤ now) && chronoFrom now rest
    | .get _ now => decide (t ≤ now) && chronoFrom now rest
    | .getMany _ now => decide (t ≤ now) && chronoFrom now rest
    | .setMany _ _ now => decide (t ≤ now) && chronoFrom now rest
    | _ => chronoFrom t rest

theorem mapGet_mapSet_ne {α : Type} {k j : String} (h : j ≠ k) (v : α) :
    ∀ m : List (String × α), mapGet (mapSet m k v) j = mapGet m j := by
  have hkj : ¬k = j := fun hkj => h hkj.symm
  intro m
  induction m with
  | nil =>
    simp only [mapSet, mapGet]
    rw [if_neg hkj]
  | cons e rest ih =>
    simp only [mapSet]
    split
    next he =>
      simp only [mapGet]
      rw [if_neg hkj, if_neg (fun hej : e.1 = j => h (hej.symm.trans he))]
    next he =>
      simp only [mapGet]
      by_cases hej : e.1 = j
      · rw [if_pos hej, if_pos hej]
      · rw [if_neg hej, if_neg hej, ih]

theorem mapGet_mapDelete_ne {α : Type} {k j : String} (h : j ≠ k) :
    ∀ m : List (String × α), mapGet (mapDelete m k) j = mapGet m j := by
  intro m
  induction m with
  | nil => rfl
  | cons e rest ih =>
    simp only [mapDelete]
    split
    next he =>
      simp only [mapGet]
      rw [if_neg (fun hej : e.1 = j => h (hej.symm.trans he))]
    next he =>
      simp only [mapGet]
      by_cases hej : e.1 = j
      · rw [if_pos hej, if_pos hej]
      · rw [if_neg hej, if_neg hej, ih]

theorem mapGet_append_single_ne {α : Type} {k j : String} (h : j ≠ k) (v : α) :
    ∀ m : List (String × α), mapGet (m ++ [(k, v)]) j = mapGet m j := by
  have hkj : ¬k = j := fun hkj => h hkj.symm
  intro m
  induction m with
  | nil =>
    simp only [List.nil_append, mapGet]
    rw [if_neg hkj]
  | cons e rest ih =>
    simp only [List.cons_append, mapGet]
    by_cases hej : e.1 = j
    · rw [if_pos hej, if_pos hej]
    · rw [if_neg hej, if_neg hej]
      exact ih

theorem mem_of_mem_mapSet {α : Type} {k : String} {v : α} :
    ∀ {m : List (String × α)} {e : String × α}, e ∈ mapSet m k v → e ∈ m ∨ e = (k, v) := by
  intro m
  induction m with
  | nil =>
    intro e he
    simp only [mapSet, List.mem_singleton] at he
    exact Or.inr he
  | cons x rest ih =>
    intro e he
    by_cases hx : x.1 = k
    · rw [show mapSet (x :: rest) k v = (k, v) :: rest from by simp [mapSet, hx]] at he
      rcases List.mem_cons.mp he with rfl | h'
      · exact Or.inr rfl
      · exact Or.inl (List.mem_cons_of_mem x h')
    · rw [show mapSet (x :: rest) k v = x :: mapSet rest k v from by simp [mapSet, hx]] at he
      rcases List.mem_cons.mp he with rfl | h'
      · exact Or.inl (List.mem_cons_self _ _)
      · rcases ih h' with h'' | h''
        · exact Or.inl (List.mem_cons_of_mem x h'')
        · exact Or.inr h''

theorem mapGet_of_mem {α : Type} :
    ∀ {m : List (String × α)}, (m.map Prod.fst).Nodup → ∀ {e : String × α}, e ∈ m →
      mapGet m e.1 = some e.2 := by
  intro m
  induction m with
  | nil =>
    intro _ e he
    simp at he
  | cons x rest ih =>
    intro hnd e he
    rw [List.map_cons, List.nodup_cons] at hnd
    rcases List.mem_cons.mp he with rfl | h'
    · simp [mapGet]
    · have hne : x.1 ≠ e.1 := fun hx => hnd.1 (hx ▸ List.mem_map_of_mem Prod.fst h')
      simp [mapGet, hne, ih hnd.2 h']

theorem mem_of_mapGet_some {α : Type} {j : String} {v : α} :
    ∀ {m : List (String × α)}, mapGet m j = some v → (j, v) ∈ m := by
  intro m
  induction m with
  | nil => intro h; exact absurd h (by simp [mapGet])
  | cons e rest ih =>
    intro h
    by_cases he : e.1 = j
    · rw [mapGet, if_pos he] at h
      rw [Option.some_inj] at h
      subst h
      rw [← he]
      exact List.mem_cons_self e rest
    · rw [mapGet, if_neg he] at h
      exact List.mem_cons_of_mem e (ih h)

theorem accessTimeOf_le {st : MemoryState} {t : Nat} (hTime : TimeBound st t)
    (j : String) : accessTimeOf st j ≤ t := by
  unfold accessTimeOf
  cases hg : mapGet st.cache j with
  | none => exact Nat.zero_le t
  | some it => exact hTime (j, it) (mem_of_mapGet_some hg)

theorem ne_of_mem_erase_of_nodup {l : List String} (hnd : l.Nodup) {j k : String}
    (hj : j ∈ l.erase k) : j ≠ k := by
  intro hjk
  subst hjk
  exact hnd.not_mem_erase hj

theorem ChronoInv_mono {st : MemoryState} {t t' : Nat} (h : ChronoInv st t) (ht : t ≤ t') :
    ChronoInv st t' :=
  ⟨h.1, fun e he => le_trans (h.2 e he) ht⟩

theorem adapterDelete_accessOrder (st : MemoryState) (k : String) :
    (adapterDelete st k).accessOrder = st.accessOrder.erase k := by
  unfold adapterDelete
  dsimp only
  rw [removeKey_eq_erase]

theorem ChronoInv_adapterDelete {st : MemoryState} {t : Nat} (hsync : SyncInv st)
    (h : ChronoInv st t) (k : String) : ChronoInv (adapterDelete st k) t := by
  obtain ⟨hAcc, hTime⟩ := h
  have haoNodup : st.accessOrder.Nodup := hsync.1.nodup_iff.mpr hsync.2.1
  have heq : ∀ j, j ≠ k → accessTimeOf (adapterDelete st k) j = accessTimeOf st j := by
    intro j hj
    unfold accessTimeOf adapterDelete
    dsimp only
    rw [mapGet_mapDelete_ne hj]
  constructor
  · unfold AccessInv
    rw [adapterDelete_accessOrder]
    have hsub : (st.accessOrder.erase k).Pairwise
        (fun a b => accessTimeOf st a ≤ accessTimeOf st b) :=
      List.Pairwise.sublist (List.erase_sublist k st.accessOrder) hAcc
    refine List.Pairwise.imp_of_mem ?_ hsub
    intro a b ha hb hr
    rw [heq _ (ne_of_mem_erase_of_nodup haoNodup ha),
      heq _ (ne_of_mem_erase_of_nodup haoNodup hb)]
    exact hr
  · intro e he
    exact hTime e ((mapDelete_sublist st.cache k).subset he)

theorem ChronoInv_touch {st : MemoryState} {t now : Nat} (hsync : SyncInv st)
    (h : ChronoInv st t) (ht : t ≤ now) (k : String) (it' : CacheItem)
    (hnew : it'.accessedAt = now) :
    ChronoInv { st with cache := mapSet st.cache k it',
                        accessOrder := updateAccessOrder st.accessOrder k } now := by
  obtain ⟨hAcc, hTime⟩ := h
  have haoNodup : st.accessOrder.Nodup := hsync.1.nodup_iff.mpr hsync.2.1
  have heq : ∀ (ao : List String) (j : String), j ≠ k →
      accessTimeOf { st with cache := mapSet st.cache k it', accessOrder := ao } j =
        accessTimeOf st j := by
    intro ao j hj
    unfold accessTimeOf
    dsimp only
    rw [mapGet_mapSet_ne hj]
  have heqk : ∀ ao : List String,
      accessTimeOf { st with cache := mapSet st.cache k it', accessOrder := ao } k = now := by
    intro ao
    unfold accessTimeOf
    dsimp only
    rw [mapGet_mapSet_self]
    exact hnew
  constructor
  · unfold AccessInv
    dsimp only
    unfold updateAccessOrder
    rw [removeKey_eq_erase, List.pairwise_append]
    refine ⟨?_, List.pairwise_singleton _ _, ?_⟩
    · have hsub : (st.accessOrder.erase k).Pairwise
          (fun a b => accessTimeOf st a ≤ accessTimeOf st b) :=
        List.Pairwise.sublist (List.erase_sublist k st.accessOrder) hAcc
      refine List.Pairwise.imp_of_mem ?_ hsub
      intro a b ha hb hr
      rw [heq _ _ (ne_of_mem_erase_of_nodup haoNodup ha),
        heq _ _ (ne_of_mem_erase_of_nodup haoNodup hb)]
      exact hr
    · intro a ha b hb
      rw [List.mem_singleton] at hb
      subst hb
      rw [heq _ _ (ne_of_mem_erase_of_nodup haoNodup ha), heqk]
      exact le_trans (accessTimeOf_le hTime a) ht
  · intro e he
    dsimp only at he
    rcases mem_of_mem_mapSet he with h' | h'
    · exact le_trans (hTime e h') ht
    · rw [h']
      exact le_of_eq hnew

theorem ChronoInv_append {st : MemoryState} {t now : Nat} (hsync : SyncInv st)
    (h : ChronoInv st t) (ht : t ≤ now) {k : String} (hk : k ∉ st.cache.map Prod.fst)
    (it : CacheItem) (hnew : it.accessedAt = now) :
    ChronoInv { st with cache := st.cache ++ [(k, it)],
                        accessOrder := st.accessOrder ++ [k] } now := by
  obtain ⟨hAcc, hTime⟩ := h
  have hkao : k ∉ st.accessOrder := fun hm => hk (hsync.1.mem_iff.mp hm)
  have heq : ∀ (ao : List String) (j : String), j ≠ k →
      accessTimeOf { st with cache := st.cache ++ [(k, it)], accessOrder := ao } j =
        accessTimeOf st j := by
    intro ao j hj
    unfold accessTimeOf
    dsimp only
    rw [mapGet_append_single_ne hj]
  have heqk : ∀ ao : List String,
      accessTimeOf { st with cache := st.cache ++ [(k, it)], accessOrder := ao } k = now := by
    intro ao
    unfold accessTimeOf
    dsimp only
    rw [← mapSet_not_mem it hk, mapGet_mapSet_self]
    exact hnew
  constructor
  · unfold AccessInv
    dsimp only
    rw [List.pairwise_append]
    refine ⟨?_, List.pairwise_singleton _ _, ?_⟩
    · refine List.Pairwise.imp_of_mem ?_ hAcc
      intro a b ha hb hr
      rw [heq _ _ (fun hak => hkao (hak ▸ ha)), heq _ _ (fun hbk => hkao (hbk ▸ hb))]
      exact hr
    · intro a ha b hb
      rw [List.mem_singleton] at hb
      subst hb
      rw [heq _ _ (fun hak => hkao (hak ▸ ha)), heqk]
      exact le_trans (accessTimeOf_le hTime a) ht
  · intro e he
    dsimp only at he
    rcases List.mem_append.mp he with h' | h'
    · exact le_trans (hTime e h') ht
    · rw [List.mem_singleton] at h'
      rw [h']
      exact le_of_eq hnew

theorem evict_eq_delete {st : MemoryState} (hsync : SyncInv st)
    (hstrat : st.opts.strategy = .fifo ∨ st.opts.strategy = .lru) (h₀ : String)
    (rest : List String) (hao : st.accessOrder = h₀ :: rest)
    (hlen : st.cache.length ≠ 0) : evict st = adapterDelete st h₀ := by
  have hmem : h₀ ∈ st.cache.map Prod.fst :=
    hsync.1.mem_iff.mp (hao ▸ List.mem_cons_self h₀ rest)
  have hne : h₀ ≠ "" := fun h0 => hsync.2.2 (h0 ▸ hmem)
  have haoNodup : st.accessOrder.Nodup := hsync.1.nodup_iff.mpr hsync.2.1
  have hnotrest : h₀ ∉ rest := (List.nodup_cons.mp (hao ▸ haoNodup)).1
  unfold evict adapterDelete
  rw [if_neg hlen]
  rcases hstrat with hs | hs <;>
    rw [hs, hao] <;>
    dsimp only <;>
    rw [if_pos hne, removeKey_not_mem hnotrest,
      show removeKey (h₀ :: rest) h₀ = rest from by simp [removeKey]]

theorem ChronoInv_adapterGet {st : MemoryState} {t : Nat} (hsync : SyncInv st)
    (hs : st.opts.strategy = .lru) (h : ChronoInv st t) (k : String) {now : Nat}
    (ht : t ≤ now) : ChronoInv (adapterGet st k now).2 now := by
  unfold adapterGet
  cases hfind : mapGet st.cache k with
  | none =>
    show ChronoInv st now
    exact ChronoInv_mono h ht
  | some it =>
    dsimp only
    by_cases hexp : isExpired it now
    · rw [if_pos hexp]
      exact ChronoInv_mono (ChronoInv_adapterDelete hsync h k) ht
    · rw [if_neg hexp]
      dsimp only
      rw [if_pos hs]
      exact ChronoInv_touch hsync h ht k _ rfl

theorem ChronoInv_adapterHas {st : MemoryState} {t : Nat} (hsync : SyncInv st)
    (h : ChronoInv st t) (k : String) (now : Nat) :
    ChronoInv (adapterHas st k now).2 t := by
  unfold adapterHas
  cases hfind : mapGet st.cache k with
  | none =>
    show ChronoInv st t
    exact h
  | some it =>
    dsimp only
    by_cases hexp : isExpired it now
    · rw [if_pos hexp]
      exact ChronoInv_adapterDelete hsync h k
    · rw [if_neg hexp]
      show ChronoInv st t
      exact h

theorem ChronoInv_foldl_adapterDelete (ks : List String) :
    ∀ (st : MemoryState) (t : Nat), SyncInv st → ChronoInv st t →
      ChronoInv (ks.foldl adapterDelete st) t := by
  induction ks with
  | nil => intro st t _ h; exact h
  | cons k rest ih =>
    intro st t hsync h
    rw [List.foldl_cons]
    exact ih _ _ (SyncInv_adapterDelete hsync k) (ChronoInv_adapterDelete hsync h k)

theorem ChronoInv_adapterKeys {st : MemoryState} {t : Nat} (hsync : SyncInv st)
    (h : ChronoInv st t) (now : Nat) : ChronoInv (adapterKeys st now).2 t := by
  unfold adapterKeys
  exact ChronoInv_foldl_adapterDelete _ st t hsync h

theorem ChronoInv_adapterClear (st : MemoryState) (t : Nat) :
    ChronoInv (adapterClear st) t := by
  constructor
  · unfold AccessInv adapterClear
    dsimp only
    exact List.Pairwise.nil
  · intro e he
    simp [adapterClear] at he

theorem ChronoInv_adapterDeleteByTags {st : MemoryState} {t : Nat} (hsync : SyncInv st)
    (h : ChronoInv st t) (tags : List String) :
    ChronoInv (adapterDeleteByTags st tags).2 t := by
  unfold adapterDeleteByTags
  split
  · exact h
  · exact ChronoInv_foldl_adapterDelete _ st t hsync h

theorem ChronoInv_adapterSet {st : MemoryState} {t : Nat} (hsync : SyncInv st)
    (hs : st.opts.strategy = .lru) (h : ChronoInv st t) (k : String)
    (v : JSVal) (ttl : Option Nat) (tg : Option (List String)) {now : Nat}
    (ht : t ≤ now) : ChronoInv (adapterSet st k v ttl tg now) now := by
  unfold adapterSet
  dsimp only
  by_cases hex : (mapGet st.cache k).isSome
  · rw [if_pos hex, if_pos hs]
    exact ChronoInv_touch hsync h ht k _ rfl
  · rw [if_neg hex]
    have hknot : k ∉ st.cache.map Prod.fst :=
      (mapGet_eq_none_iff _ _).mp (Option.not_isSome_iff_eq_none.mp hex)
    have hfacts :
        SyncInv (match st.opts.maxSize with
          | some m => if m ≤ st.cache.length then evict st else st
          | none => st)
        ∧ ChronoInv (match st.opts.maxSize with
            | some m => if m ≤ st.cache.length then evict st else st
            | none => st) t
        ∧ k ∉ (match st.opts.maxSize with
            | some m => if m ≤ st.cache.length then evict st else st
            | none => st).cache.map Prod.fst := by
      cases hms : st.opts.maxSize with
      | none =>
        dsimp only
        exact ⟨hsync, h, hknot⟩
      | some m =>
        dsimp only
        by_cases hm : m ≤ st.cache.length
        · rw [if_pos hm]
          by_cases hlen : st.cache.length = 0
          · rw [show evict st = st from by unfold evict; rw [if_pos hlen]]
            exact ⟨hsync, h, hknot⟩
          · obtain ⟨h₀, rest, hao⟩ : ∃ h₀ rest, st.accessOrder = h₀ :: rest := by
              cases hao : st.accessOrder with
              | nil =>
                exfalso
                have hp := hao ▸ hsync.1
                rw [List.nil_perm] at hp
                apply hlen
                rw [← List.length_map st.cache Prod.fst, hp]
                rfl
              | cons a b => exact ⟨a, b, rfl⟩
            rw [evict_eq_delete hsync (Or.inr hs) h₀ rest hao hlen]
            exact ⟨SyncInv_adapterDelete hsync h₀, ChronoInv_adapterDelete hsync h h₀,
              fun hm' => hknot (((mapDelete_sublist st.cache h₀).map Prod.fst).subset hm')⟩
        · rw [if_neg hm]
          exact ⟨hsync, h, hknot⟩
    obtain ⟨hsync₁, hchrono₁, hknot₁⟩ := hfacts
    rw [if_pos (Or.inr hs), mapSet_not_mem _ hknot₁]
    exact ChronoInv_append hsync₁ hchrono₁ ht hknot₁ _ rfl

theorem ChronoInv_foldl_getManyStep {now : Nat} (keys : List String) :
    ∀ (p : List (String × JSVal) × MemoryState) (t : Nat), SyncInv p.2 →
      p.2.opts.strategy = .lru → ChronoInv p.2 t → t ≤ now →
      ChronoInv ((keys.foldl (getManyStep now) p).2) now := by
  induction keys with
  | nil => intro p t _ _ h ht; exact ChronoInv_mono h ht
  | cons k rest ih =>
    intro p t hsync hs h ht
    rw [List.foldl_cons]
    refine ih _ now ?_ ?_ ?_ (le_refl now)
    · rw [getManyStep_snd]
      exact SyncInv_adapterGet hsync k now
    · rw [getManyStep_snd, opts_adapterGet]
      exact hs
    · rw [getManyStep_snd]
      exact ChronoInv_adapterGet hsync hs h k ht

theorem ChronoInv_adapterSetMany {now : Nat} (ttl : Option Nat)
    (data : List (String × JSVal)) :
    ∀ (st : MemoryState) (t : Nat), SyncInv st → st.opts.strategy = .lru →
      (∀ e ∈ data, e.1 ≠ "") → ChronoInv st t → t ≤ now →
      ChronoInv (adapterSetMany st data ttl now) now := by
  induction data with
  | nil => intro st t _ _ _ h ht; exact ChronoInv_mono h ht
  | cons e rest ih =>
    intro st t hsync hs hkeys h ht
    unfold adapterSetMany at ih ⊢
    rw [List.foldl_cons]
    refine ih _ now ?_ ?_ ?_ ?_ (le_refl now)
    · exact SyncInv_adapterSet hsync (hkeys e (List.mem_cons_self e rest)) (Or.inr hs)
        e.2 ttl none now
    · rw [opts_adapterSet]
      exact hs
    · exact fun x hx => hkeys x (List.mem_cons_of_mem e hx)
    · exact ChronoInv_adapterSet hsync hs h e.1 e.2 ttl none ht

theorem ChronoInv_runOps (ops : List CacheOp) :
    ∀ (st : MemoryState) (t : Nat), SyncInv st → st.opts.strategy = .lru →
      ChronoInv st t → chronoFrom t ops = true → (∀ op ∈ ops, opKeysNE op = true) →
      ∃ t', ChronoInv (runOps st ops) t' := by
  induction ops with
  | nil => intro st t _ _ h _ _; exact ⟨t, h⟩
  | cons op rest ih =>
    intro st t hsync hs h hcf hops
    have hopk := hops op (List.mem_cons_self op rest)
    have hrest := fun x hx => hops x (List.mem_cons_of_mem op hx)
    have hsync' : SyncInv (runOp st op) := SyncInv_runOp hsync (Or.inr hs) hopk
    have hs' : (runOp st op).opts.strategy = .lru := by
      rw [opts_runOp]
      exact hs
    unfold runOps at ih ⊢
    rw [List.foldl_cons]
    cases op with
    | set k v ttl tg now =>
      rw [show chronoFrom t (CacheOp.set k v ttl tg now :: rest) =
          (decide (t ≤ now) && chronoFrom now rest) from rfl, Bool.and_eq_true] at hcf
      exact ih _ now hsync' hs'
        (ChronoInv_adapterSet hsync hs h k v ttl tg (of_decide_eq_true hcf.1))
        hcf.2 hrest
    | get k now =>
      rw [show chronoFrom t (CacheOp.get k now :: rest) =
          (decide (t ≤ now) && chronoFrom now rest) from rfl, Bool.and_eq_true] at hcf
      exact ih _ now hsync' hs'
        (ChronoInv_adapterGet hsync hs h k (of_decide_eq_true hcf.1)) hcf.2 hrest
    | del k =>
      exact ih _ t hsync' hs' (ChronoInv_adapterDelete hsync h k) hcf hrest
    | has k now =>
      exact ih _ t hsync' hs' (ChronoInv_adapterHas hsync h k now) hcf hrest
    | keys now =>
      exact ih _ t hsync' hs' (ChronoInv_adapterKeys hsync h now) hcf hrest
    | clear =>
      exact ih _ t hsync' hs' (ChronoInv_adapterClear st t) hcf hrest
    | delByTags tags =>
      exact ih _ t hsync' hs' (ChronoInv_adapterDeleteByTags hsync h tags) hcf hrest
    | getMany ks now =>
      rw [show chronoFrom t (CacheOp.getMany ks now :: rest) =
          (decide (t ≤ now) && chronoFrom now rest) from rfl, Bool.and_eq_true] at hcf
      exact ih _ now hsync' hs'
        (ChronoInv_foldl_getManyStep ks ([], st) t hsync hs h (of_decide_eq_true hcf.1))
        hcf.2 hrest
    | setMany data ttl now =>
      rw [show chronoFrom t (CacheOp.setMany data ttl now :: rest) =
          (decide (t ≤ now) && chronoFrom now rest) from rfl, Bool.and_eq_true] at hcf
      have hks : ∀ e ∈ data, e.1 ≠ "" := by
        intro e he
        have hall : data.all (fun e => e.1 != "") = true := hopk
        have := List.all_eq_true.mp hall e he
        simpa using this
      exact ih _ now hsync' hs'
        (ChronoInv_adapterSetMany ttl data st t hsync hs hks h (of_decide_eq_true hcf.1))
        hcf.2 hrest

/-- The store of the spec's LRU scenario one step before the evicting
insert: `maxEntries = 3`, insert A, B, C, then read A. -/
def lruPreEvict : MemoryState :=
  runOps (initState ⟨none, some 3, some .lru⟩)
    [.set "A" (.val 1) none none 0, .set "B" (.val 2) none none 1,
     .set "C" (.val 3) none none 2, .get "A" 3]

/-- The at-capacity store whose least-recently-accessed key is the empty
string: `maxEntries = 2`, insert `""` at time 0, insert `"a"` at time 1. -/
def c2cexStore : MemoryState :=
  runOps (initState ⟨none, some 2, some .lru⟩)
    [.set "" (.val 1) none none 0, .set "a" (.val 2) none none 1]

/-- Claim C2 (counterexample): the universal victim-selection clause fails
on the empty-string key. With `maxEntries = 2` and keys `""` (accessed at
0, the oldest) and `"a"` (accessed at 1), inserting the new key `"b"`
evicts nothing: `evict()`'s `if (keyToRemove)` guard is falsy for `""`, so
the oldest-accessed key survives and the store grows to 3 entries instead
of evicting it. -/
theorem memory_lru_victim_counterexample :
    c2cexStore.accessOrder = ["", "a"]
    ∧ accessTimeOf c2cexStore "" = 0
    ∧ accessTimeOf c2cexStore "a" = 1
    ∧ c2cexStore.cache.length = 2
    ∧ (mapGet (adapterSet c2cexStore "b" (.val 3) none none 2).cache "").isSome = true
    ∧ (adapterSet c2cexStore "b" (.val 3) none none 2).cache.length = 3 := by
  decide

/-- Claim C2 (amended): under LRU, when `set` of a new key finds the store
at capacity and the store's keys are nonempty strings, the evicted victim
is the key with the oldest last access, where both `get` and `set` count
as an access. Conjunct 1 states this for any store satisfying the sync and
recency invariants: the front `h₀` of `accessOrder` has the minimal
`accessedAt` of all entries, the insert removes exactly `h₀` and appends
the new key. Conjunct 2 discharges those invariants for every store the
code can reach: any operation sequence (nonempty inserted keys,
non-decreasing clock) from a fresh LRU adapter preserves them — `get` and
`set` each stamp `accessedAt := now` and move the key to the back of
`accessOrder`, so the order stays sorted by last access. The remaining
conjuncts are the spec's concrete scenario: A, B, C inserted, A read, D
inserted — exactly B is evicted, leaving A, C, D. -/
theorem memory_lru_victim_oldest :
    (∀ (st : MemoryState) (k : String) (v : JSVal) (ttl : Option Nat)
        (tg : Option (List String)) (now m : Nat) (h₀ : String) (rest : List String),
      st.opts.strategy = .lru →
      st.opts.maxSize = some m →
      SyncInv st →
      AccessInv st →
      st.accessOrder = h₀ :: rest →
      mapGet st.cache k = none →
      m ≤ st.cache.length →
      (∀ e ∈ st.cache, accessTimeOf st h₀ ≤ e.2.accessedAt)
      ∧ mapGet (adapterSet st k v ttl tg now).cache h₀ = none
      ∧ (adapterSet st k v ttl tg now).cache.map Prod.fst =
          ((st.cache.map Prod.fst).erase h₀) ++ [k])
    ∧ (∀ (o : MemoryAdapterOptions) (ops : List CacheOp),
        (resolveOptions o).strategy = .lru →
        chronoFrom 0 ops = true →
        (∀ op ∈ ops, opKeysNE op = true) →
        SyncInv (runOps (initState o) ops) ∧ AccessInv (runOps (initState o) ops))
    ∧ mapGet lruScenario.cache "B" = none
    ∧ lruScenario.cache.map Prod.fst = ["A", "C", "D"]
    ∧ (mapGet lruScenario.cache "A").isSome = true
    ∧ (mapGet lruScenario.cache "C").isSome = true
    ∧ (mapGet lruScenario.cache "D").isSome = true := by
  refine ⟨?_, ?_, by decide, by decide, by decide, by decide, by decide⟩
  · intro st k v ttl tg now m h₀ rest hs hms hsync hacc hao hfresh hcap
    obtain ⟨hperm, hnd, hne⟩ := hsync
    have h₀mem : h₀ ∈ st.cache.map Prod.fst :=
      hperm.mem_iff.mp (hao ▸ List.mem_cons_self h₀ rest)
    have hkne : k ∉ st.cache.map Prod.fst := (mapGet_eq_none_iff _ _).mp hfresh
    have hk₀k : h₀ ≠ k := fun he => hkne (he ▸ h₀mem)
    have hlen : st.cache.length ≠ 0 := by
      intro h0
      rw [List.length_eq_zero] at h0
      rw [h0] at h₀mem
      simp at h₀mem
    have hacc' : List.Pairwise (fun a b => accessTimeOf st a ≤ accessTimeOf st b)
        (h₀ :: rest) := by
      have h' := hacc
      unfold AccessInv at h'
      rwa [hao] at h'
    have hknot₁ : k ∉ (mapDelete st.cache h₀).map Prod.fst :=
      fun hm => hkne (((mapDelete_sublist st.cache h₀).map Prod.fst).subset hm)
    have hevc : (evict st).cache = mapDelete st.cache h₀ := by
      rw [evict_eq_delete ⟨hperm, hnd, hne⟩ (Or.inr hs) h₀ rest hao hlen]
      rfl
    have hset : (adapterSet st k v ttl tg now).cache =
        mapDelete st.cache h₀ ++
          [(k, { value := v, expiresAt := computeExpiresAt st.opts.ttl ttl now,
                 accessedAt := now, accessCount := 0, tags := tg })] := by
      unfold adapterSet
      dsimp only
      rw [if_neg (show ¬(mapGet st.cache k).isSome = true by simp [hfresh]), hms]
      dsimp only
      rw [if_pos hcap, if_pos (Or.inr hs)]
      dsimp only
      rw [hevc, mapSet_not_mem _ hknot₁]
    refine ⟨?_, ?_, ?_⟩
    · intro e he
      have hetime : accessTimeOf st e.1 = e.2.accessedAt := by
        unfold accessTimeOf
        rw [mapGet_of_mem hnd he]
      have he1 : e.1 ∈ st.accessOrder :=
        hperm.mem_iff.mpr (List.mem_map_of_mem Prod.fst he)
      rw [hao] at he1
      rcases List.mem_cons.mp he1 with he1 | he1
      · rw [← he1, hetime]
      · rw [← hetime]
        exact List.rel_of_pairwise_cons hacc' he1
    · rw [hset, mapGet_append_single_ne hk₀k]
      exact mapGet_mapDelete_self hnd
    · rw [hset, List.map_append, keys_mapDelete, removeKey_eq_erase]
      rfl
  · intro o ops hs hcf hops
    have hsync0 : SyncInv (initState o) :=
      ⟨by simp [initState], by simp [initState], by simp [initState]⟩
    have hchrono0 : ChronoInv (initState o) 0 := by
      constructor
      · unfold AccessInv initState
        dsimp only
        exact List.Pairwise.nil
      · intro e he
        simp [initState] at he
    obtain ⟨t', h'⟩ := ChronoInv_runOps ops (initState o) 0 hsync0 hs hchrono0 hcf hops
    exact ⟨SyncInv_runOps ops (initState o) hsync0 (Or.inr hs) hops, h'.1⟩

/-- Witness for C2's amended theorem at the spec's concrete input: in the
store holding A, B, C with A just read, B is the least recently accessed
key; inserting D evicts exactly B, leaving A, C, D. -/
theorem memory_lru_victim_oldest_witness :
    (∀ e ∈ lruPreEvict.cache, accessTimeOf lruPreEvict "B" ≤ e.2.accessedAt)
    ∧ mapGet (adapterSet lruPreEvict "D" (.val 4) none none 4).cache "B" = none
    ∧ (adapterSet lruPreEvict "D" (.val 4) none none 4).cache.map Prod.fst =
        ((lruPreEvict.cache.map Prod.fst).erase "B") ++ ["D"] :=
  memory_lru_victim_oldest.1 lruPreEvict "D" (.val 4) none none 4 3 "B" ["C", "A"]
    (by decide) (by decide) (by unfold SyncInv; decide) (by unfold AccessInv; decide)
    (by decide) (by decide) (by decide)
